import Mathlib

/-!
A shallow embedding of the dependency resolution and fetch pipeline of
`npm-offline-packager` (`src/lib/npm-top.js`: `getManifestDependencies`,
`getPackageManifest`, `resolveDependencies`, `downloadPackageTarball`,
`downloadPackages`), together with proofs about its behaviour.

Modelling conventions:
- JS objects holding dependency maps become association lists
  `List (String × String)` (insertion order preserved, as in JS).
- The npm registry (accessed through the external `pacote` library) becomes a
  finite table of responses: per `(name, version)` a manifest or a coded
  error, and per `name` a packument or an error.
- Promise chains become explicit state threading; the concurrently settled
  batches (`Promise.all` / `Promise.allSettled`) are modelled in input order,
  which is the order in which their result arrays are produced.
- The recursive async walk of `resolveDependencies` is modelled with an
  explicit fuel parameter; fuel-independence beyond a bound derived from the
  registry size is proved below and is the termination statement.
-/

namespace NpmOfflinePackager

/-- A `(name, version)` package coordinate. -/
abbrev Pair := String × String

/-- JS `String.prototype.replace` with a single-character pattern: replaces
only the first occurrence, as in `name.replace('/', '-')` and
`version.replace('^', '')`. -/
def jsReplaceCharList : List Char → Char → List Char → List Char
  | [], _, _ => []
  | x :: xs, c, r => if x = c then r ++ xs else x :: jsReplaceCharList xs c r

/-- String wrapper for `jsReplaceCharList`. -/
def jsStringReplace (s : String) (c : Char) (r : String) : String :=
  ⟨jsReplaceCharList s.data c r.data⟩

/-- Write or overwrite one key of a JS-object association list: an existing
key keeps its position and gets the new value, a fresh key is appended.
This is the effect of one property assignment of lodash `merge` on a
string-valued key. -/
def setKey : List (String × String) → String → String → List (String × String)
  | [], k, v => [(k, v)]
  | (k', v') :: rest, k, v =>
    if k' = k then (k', v) :: rest else (k', v') :: setKey rest k v

/-- lodash `merge(target, source)` restricted to flat string-valued maps:
every key of `source` is written into `target` in order, so on a key
collision the `source` (later) value wins. -/
def jsMerge (target source : List (String × String)) : List (String × String) :=
  source.foldl (fun acc kv => setKey acc kv.1 kv.2) target

/-- Look a key up in a JS-object association list. -/
def lookupKey : List (String × String) → String → Option String
  | [], _ => none
  | kv :: rest, k => if kv.1 = k then some kv.2 else lookupKey rest k

/-- Modelled from the spec: validity of a concrete semver string as used by
the external `semver.valid` check (the `semver` npm library is not part of
this repository).  Following §3 and the glossary, a concrete version is
`MAJOR.MINOR.PATCH` — three nonempty digit components — optionally followed
by `-prerelease` (a nonempty suffix). -/
def isDigitRun (s : List Char) : Bool :=
  !s.isEmpty && s.all (fun c => c.isDigit)

/-- Split a character list at the first occurrence of a character. -/
def splitAtChar (c : Char) : List Char → Option (List Char × List Char)
  | [] => none
  | x :: xs =>
    if x = c then some ([], xs)
    else (splitAtChar c xs).map (fun p => (x :: p.1, p.2))

/-- Modelled from the spec: the main `MAJOR.MINOR.PATCH` part is three
digit runs separated by dots. -/
def validMainPart (s : List Char) : Bool :=
  match splitAtChar '.' s with
  | none => false
  | some (a, rest) =>
    match splitAtChar '.' rest with
    | none => false
    | some (b, c) =>
      isDigitRun a && isDigitRun b && isDigitRun c &&
        !(c.contains '.')

/-- Modelled from the spec: `semver.valid` (external library), per the
glossary entry «Concrete version: a string matching
`MAJOR.MINOR.PATCH[-prerelease]`». -/
def semverValid (s : String) : Bool :=
  match splitAtChar '-' s.data with
  | none => validMainPart s.data
  | some (main, pre) => validMainPart main && !pre.isEmpty

/-- Take the maximal leading digit run of a character list. -/
def takeDigits (s : List Char) : List Char × List Char :=
  match s with
  | [] => ([], [])
  | c :: cs =>
    if c.isDigit then
      let r := takeDigits cs
      (c :: r.1, r.2)
    else ([], s)

/-- Find the first digit of a character list and return the maximal digit
run starting there together with the remainder of the list. -/
def firstNumRun : List Char → Option (List Char × List Char)
  | [] => none
  | c :: cs =>
    if c.isDigit then some (takeDigits (c :: cs))
    else firstNumRun cs

/-- Modelled from the spec: `semver.coerce` (external library), per §4.1:
«take the first contiguous `N[.N[.N]]` substring, zero-fill missing
components», returning `none` when no numeric component exists. -/
def semverCoerce (s : String) : Option String :=
  match firstNumRun s.data with
  | none => none
  | some (r1, rest) =>
    let (r2, rest2) :=
      match rest with
      | '.' :: cs =>
        if (takeDigits cs).1.isEmpty then (['0'], rest) else takeDigits cs
      | _ => (['0'], rest)
    let r3 :=
      match rest2 with
      | '.' :: cs =>
        if (takeDigits cs).1.isEmpty then ['0'] else (takeDigits cs).1
      | _ => ['0']
    some ⟨r1 ++ '.' :: r2 ++ '.' :: r3⟩

/-- The per-edge version coercion of `getManifestDependencies`
(src/lib/npm-top.js lines 131–137): strip the first `^` and the first `~`,
test the stripped string with `semver.valid`; when valid, the ORIGINAL
range string is returned; otherwise the stripped string is coerced, and
`latest` is the fallback when coercion fails. -/
def coerceQueryVersion (version : String) : String :=
  let cleanVersion := jsStringReplace (jsStringReplace version '^' "") '~' ""
  if semverValid cleanVersion then version
  else
    match semverCoerce cleanVersion with
    | none => "latest"
    | some c => c

/-- A package manifest as returned by the registry for one version
(§3 of the design: `name`, `version` and the four dependency maps). -/
structure Manifest where
  name : String
  version : String
  dependencies : List (String × String) := []
  devDependencies : List (String × String) := []
  peerDependencies : List (String × String) := []
  optionalDependencies : List (String × String) := []
deriving DecidableEq

/-- A registry error as surfaced by `pacote`: a `code` (`"ETARGET"`,
`"E404"`, … — the empty string models a plain `Error` without a code), a
message, and for `ETARGET` errors the `distTags.latest` payload. -/
structure NpmError where
  code : String := ""
  message : String := ""
  distTagsLatest : String := ""
deriving DecidableEq

/-- The only packument field the code reads: `packument['dist-tags'].latest`. -/
structure Packument where
  distTagsLatest : String
deriving DecidableEq

/-- The outcome of a registry request. -/
inductive RegResult (α : Type) where
  | ok : α → RegResult α
  | err : NpmError → RegResult α
deriving DecidableEq

/-- The npm registry as seen through `pacote`: a finite table of manifest
responses keyed by `(name, version)` and of packument responses keyed by
name.  A coordinate absent from the table behaves as a 404, as the real
registry does. -/
structure Registry where
  manifests : List (Pair × RegResult Manifest)
  packuments : List (String × RegResult Packument)

/-- `pacote.manifest(name@version)` against the response table. -/
def Registry.manifestAt (reg : Registry) (name version : String) :
    RegResult Manifest :=
  match reg.manifests.find? (fun e => e.1 = (name, version)) with
  | some e => e.2
  | none => .err { code := "E404", message := name ++ "@" ++ version ++ " missing" }

/-- `pacote.packument(name)` against the response table. -/
def Registry.packumentAt (reg : Registry) (name : String) :
    RegResult Packument :=
  match reg.packuments.find? (fun e => e.1 = name) with
  | some e => e.2
  | none => .err { code := "E404", message := name ++ " missing" }

/-- The `.catch` fallback chain attached to `pacote.manifest` inside
`getPackageManifest` (src/lib/npm-top.js lines 212–226): on `ETARGET`
retry once with the `latest` tag carried by the error; on `E404` retry
once with the `latest` tag unless the query already was `latest`, in which
case a fresh plain `Error` is raised; any other error is re-raised
unchanged. -/
def manifestWithFallback (reg : Registry) (name version : String) :
    RegResult Manifest :=
  match reg.manifestAt name version with
  | .ok m => .ok m
  | .err e =>
    if e.code = "ETARGET" then reg.manifestAt name e.distTagsLatest
    else if e.code = "E404" then
      if version ≠ "latest" then reg.manifestAt name "latest"
      else .err { message := name ++ "@" ++ version ++ " not found" }
    else .err e

/-- A manifest together with the `isLatest` flag that `getPackageManifest`
writes onto it. -/
structure ManifestL extends Manifest where
  isLatest : Bool
deriving DecidableEq

/-- `getPackageManifest` (src/lib/npm-top.js lines 208–238): a
`Promise.all` of the manifest fetch (with its fallback chain) and — only
when the query version is not the literal `latest` — the packument fetch.
Both must succeed for the promise to resolve; the concurrent rejection
race of `Promise.all` is modelled with the manifest arm first.  On
success `isLatest` is `true` without a packument (query was `latest`),
otherwise `dist-tags.latest == manifest.version`. -/
def getPackageManifest (reg : Registry) (name version : String) :
    RegResult ManifestL :=
  match manifestWithFallback reg name version with
  | .err e => .err e
  | .ok m =>
    if version ≠ "latest" then
      match reg.packumentAt name with
      | .err e => .err e
      | .ok pk => .ok { toManifest := m, isLatest := pk.distTagsLatest == m.version }
    else .ok { toManifest := m, isLatest := true }

/-- The dependency map composed by `getManifestDependencies`
(src/lib/npm-top.js lines 123–128): lodash
`merge(dependencies, dev?, peer?, optional?)` with the three optional
categories gated by the options. -/
def mergedDependencies (manifest : Manifest)
    (dev peer optional : Bool) : List (String × String) :=
  jsMerge
    (jsMerge
      (jsMerge manifest.dependencies (if dev then manifest.devDependencies else []))
      (if peer then manifest.peerDependencies else []))
    (if optional then manifest.optionalDependencies else [])

/-- The options object threaded (and mutated in place) through
`resolveDependencies`.  `depth` and `progress` use `Option` to model JS
field presence: they are `none` until the function writes them. -/
structure Options where
  dev : Bool := false
  peer : Bool := false
  optional : Bool := false
  registry : String := ""
  depth : Option Nat := none
  progress : Option Rat := none
deriving DecidableEq

/-- `getManifestDependencies` (src/lib/npm-top.js lines 122–145): merge
the dependency categories, then map every range string through the
version coercion. -/
def getManifestDependencies (manifest : Manifest) (opts : Options) :
    List (String × String) :=
  (mergedDependencies manifest opts.dev opts.peer opts.optional).map
    (fun kv => (kv.1, coerceQueryVersion kv.2))

/-- The mutable state visible to `resolveDependencies`: the process-wide
visited set (`resolvedPackages`, modelled from the spec §4.3 as a set of
`(name, version)` keys because `src/lib/cache` is not under `src/`), the
shared options object, and the stream of logger events
`(message, progress fraction)`. -/
structure RState where
  visited : List Pair := []
  opts : Options
  events : List (String × Rat) := []
deriving DecidableEq

/-- One resolved output element `{ name, version, isLatest }`. -/
structure Resolved where
  name : String
  version : String
  isLatest : Bool
deriving DecidableEq

/-- The per-level manifest batch of `resolveDependencies` (lines 170–177):
filter the edges already in the visited set (by query version), fetch the
survivors via `getPackageManifest` (failed fetches are logged and dropped),
then drop manifests whose concrete `(name, version)` is already visited. -/
def levelManifests (reg : Registry) (st : RState)
    (dependencies : List (String × String)) : List ManifestL :=
  ((((dependencies.filter (fun d => !(st.visited.contains d))).map
      (fun d => getPackageManifest reg d.1 d.2)).filterMap
      (fun r => match r with | .ok m => some m | .err _ => none)).filter
      (fun m => !(st.visited.contains (m.name, m.version))))

/-- The `manifests.forEach` of lines 180–183: emit one logger event per
manifest at the current progress fraction and add its concrete pair to
the visited set. -/
def addLevel (st : RState) (manifests : List ManifestL) : RState :=
  manifests.foldl
    (fun s m =>
      { s with
        visited := s.visited ++ [(m.name, m.version)],
        events := s.events ++
          [("Resolving dependencies: " ++ m.name ++ "@" ++ m.version,
            s.opts.progress.getD 0)] })
    st

/-- The mutation `Object.assign(options, { depth: options.depth + 1 })`
performed on the SHARED options object before each recursive call
(line 188). -/
def bumpDepth (st : RState) : RState :=
  { st with opts := { st.opts with depth := some (st.opts.depth.getD 0 + 1) } }

/-- The progress step of lines 191–193: `1 / depCount` is added to the
shared progress fraction only when the (already mutated) depth reads 0. -/
def rootProgressStep (depCount : Nat) (st : RState) : RState :=
  if st.opts.depth = some 0 then
    { st with opts :=
      { st.opts with
        progress := some (st.opts.progress.getD 0 + 1 / (depCount : Rat)) } }
  else st

/-- The `for (const currManifest of manifests)` loop of lines 186–197,
with the recursive call abstracted as `recur`.  Each iteration pushes the
current resolved package, mutates the shared options object via
`bumpDepth`, recurses, applies the (dead, see `rootProgressStep`)
progress step, and finally appends the child results. -/
def resolveChildren (recur : Manifest → RState → List Resolved × RState)
    (depCount : Nat) : List ManifestL → RState → List Resolved × RState
  | [], st => ([], st)
  | cur :: rest, st =>
    let child := recur cur.toManifest (bumpDepth st)
    let tail := resolveChildren recur depCount rest (rootProgressStep depCount child.2)
    (({ name := cur.name, version := cur.version, isLatest := cur.isLatest } :
        Resolved) :: child.1 ++ tail.1, tail.2)

/-- The `options.depth = options.depth || 0; options.progress =
options.progress || 0` initialisation of lines 166–167 on the shared
options object (an absent field and a falsy `0` both become `0`). -/
def initDepthProgress (st : RState) : RState :=
  { st with opts :=
    { st.opts with
      depth := some (st.opts.depth.getD 0),
      progress := some (st.opts.progress.getD 0) } }

/-- `resolveDependencies` (src/lib/npm-top.js lines 155–200), with an
explicit fuel parameter standing for the unbounded recursion of the
source; the fuel-stability theorem below shows the result does not depend
on the fuel once it exceeds the registry size.  With no dependencies the
call returns at once; otherwise `depth` and `progress` are initialised on
the shared options object, the level batch is fetched and recorded, and
the children are expanded sequentially. -/
def resolveDependencies (reg : Registry) :
    Nat → Manifest → RState → List Resolved × RState
  | 0, _, st => ([], st)
  | fuel + 1, manifest, st =>
    let dependencies := getManifestDependencies manifest st.opts
    if dependencies.isEmpty then ([], st)
    else
      let manifests := levelManifests reg (initDepthProgress st) dependencies
      resolveChildren (fun m s => resolveDependencies reg fuel m s)
        dependencies.length manifests
        (addLevel (initDepthProgress st) manifests)

/-- Fuel sufficient for any resolve pass over `reg` (one more than the
number of registry manifest entries). -/
def resolveBound (reg : Registry) : Nat := reg.manifests.length + 1

/-- A top-level resolve pass as the orchestrator runs it: the visited set
is cleared (`resolvedPackages.clean()`) before `resolveDependencies` is
invoked on the root manifest. -/
def resolveDependenciesTop (reg : Registry) (manifest : Manifest)
    (opts : Options) : List Resolved × RState :=
  resolveDependencies reg (resolveBound reg) manifest
    { visited := [], opts := opts, events := [] }

/-- Modelled from the spec: `cache.exist(name, version)` of the Tarball
Cache (§4.4; `src/lib/cache` is not under `src/`): membership in a durable
set of `(name, version)` keys. -/
def cacheExist (cache : List Pair) (name version : String) : Bool :=
  cache.contains (name, version)

/-- Modelled from the spec: `cache.add(name, version)` of the Tarball
Cache (§4.4): add a key to the durable set. -/
def cacheAdd (cache : List Pair) (p : Pair) : List Pair :=
  if cache.contains p then cache else cache ++ [p]

/-- One element of the array produced by `Promise.allSettled`: a promise
either fulfills with a value (the resolved package, or `null` when the
attached `.catch` swallowed an error) or rejects with a reason. -/
inductive Settlement where
  | fulfilled : Option Resolved → Settlement
  | rejected : String → Settlement
deriving DecidableEq

/-- Whether a settlement is a rejection. -/
def Settlement.isRejection : Settlement → Bool
  | .rejected _ => true
  | .fulfilled _ => false

/-- The options object passed to `downloadPackages`. -/
structure DlOptions where
  useCache : Bool := false
  destFolder : String := "."
  registry : String := ""
deriving DecidableEq

/-- The observable downloader state: the tarball cache, logger events,
`console.error` output of `handlerError`, the files written to the
destination folder, and the shared success counter. -/
structure DlState where
  cache : List Pair
  events : List (String × Rat) := []
  errors : List String := []
  files : List String := []
  counter : Nat := 0
deriving DecidableEq

/-- The tarball network/disk effect behind `pacote.tarball.toFile`: for a
`(name, version)` request either the tarball is written (`ok`) or the
fetch/write fails with an error message. -/
abbrev TarballNet := String → String → Except String Unit

/-- `downloadPackageTarball` (src/lib/npm-top.js lines 105–112): one
`pacote.tarball.toFile` call writing
`destFolder/name.replace('/', '-')-version[-latest].tgz` and resolving to
`{ name, version, isLatest }`; the written file list is returned alongside
the outcome. -/
def downloadPackageTarball (net : TarballNet) (name version : String)
    (destFolder : String) (isLatest : Bool) :
    Except String Resolved × List String :=
  match net name version with
  | .ok _ =>
    (.ok { name := name, version := version, isLatest := isLatest },
     [destFolder ++ "/" ++ jsStringReplace name '/' "-" ++ "-" ++ version ++
       (if isLatest then "-latest" else "") ++ ".tgz"])
  | .error e => (.error e, [])

/-- The settled batch of `downloadPackages` (lines 75–92), element by
element in input order (`Promise.allSettled` keeps the result array in
input order).  Success: bump the shared counter, log
`Fetching packages: name@version` at `(1 / toDownload.length) * counter`,
add to the tarball cache when `useCache`, fulfill with the package.
Failure: the inner `.catch` calls `handlerError` (a `console.error`) and
returns `null`, so the chain FULFILLS with `null`; the cache is untouched. -/
def downloadLoop (net : TarballNet) (options : DlOptions) (len : Nat) :
    List Resolved → DlState → List Settlement × DlState
  | [], st => ([], st)
  | p :: rest, st =>
    match downloadPackageTarball net p.name p.version options.destFolder p.isLatest with
    | (.ok res, newFiles) =>
      let counter := st.counter + 1
      let st1 :=
        { st with
          counter := counter,
          events := st.events ++
            [("Fetching packages: " ++ res.name ++ "@" ++ res.version,
              (1 / (len : Rat)) * counter)],
          cache := if options.useCache then cacheAdd st.cache (res.name, res.version)
                   else st.cache,
          files := st.files ++ newFiles }
      let r := downloadLoop net options len rest st1
      (Settlement.fulfilled (some res) :: r.1, r.2)
    | (.error e, newFiles) =>
      let st1 := { st with errors := st.errors ++ [e], files := st.files ++ newFiles }
      let r := downloadLoop net options len rest st1
      (Settlement.fulfilled none :: r.1, r.2)

/-- `downloadPackages` (src/lib/npm-top.js lines 63–94): with `useCache`
the input is first filtered against the tarball cache; the remaining
packages are downloaded and settled. -/
def downloadPackages (net : TarballNet) (packages : List Resolved)
    (options : DlOptions) (cache0 : List Pair) : List Settlement × DlState :=
  let packagesToDownload :=
    if options.useCache then
      packages.filter (fun p => !(cacheExist cache0 p.name p.version))
    else packages
  downloadLoop net options packagesToDownload.length packagesToDownload
    { cache := cache0 }

/-! ### Lemmas about the JS object merge -/

theorem lookupKey_setKey (l : List (String × String)) (k v k' : String) :
    lookupKey (setKey l k v) k' = if k' = k then some v else lookupKey l k' := by
  induction l with
  | nil =>
    simp only [setKey, lookupKey]
    by_cases h : k = k'
    · subst h; simp
    · rw [if_neg h, if_neg (fun hh => h hh.symm)]
  | cons kv rest ih =>
    obtain ⟨k₀, v₀⟩ := kv
    by_cases h0 : k₀ = k
    · subst h0
      simp only [setKey, if_pos rfl, lookupKey]
      by_cases h : k₀ = k'
      · subst h; simp
      · rw [if_neg h, if_neg (fun hh => h hh.symm), if_neg h]
    · simp only [setKey, if_neg h0, lookupKey]
      by_cases h : k₀ = k'
      · subst h
        rw [if_pos rfl, if_neg h0, if_pos rfl]
      · rw [if_neg h, if_neg h, ih]

theorem lookupKey_eq_none_of_not_mem (l : List (String × String)) (k : String)
    (h : k ∉ l.map Prod.fst) : lookupKey l k = none := by
  induction l with
  | nil => rfl
  | cons kv rest ih =>
    simp only [List.map_cons, List.mem_cons] at h
    push_neg at h
    have hne : ¬(kv.1 = k) := fun hk => h.1 hk.symm
    simp only [lookupKey, if_neg hne]
    exact ih h.2

/-- Looking a key up in a lodash merge of flat string maps: the source map
wins when it binds the key (later categories override earlier ones),
provided the source is a genuine JS object (no duplicate keys). -/
theorem lookupKey_jsMerge (target source : List (String × String)) (k : String)
    (hs : (source.map Prod.fst).Nodup) :
    lookupKey (jsMerge target source) k =
      (lookupKey source k).or (lookupKey target k) := by
  induction source generalizing target with
  | nil => simp [jsMerge, lookupKey]
  | cons kv rest ih =>
    obtain ⟨k₀, v₀⟩ := kv
    simp only [List.map_cons, List.nodup_cons] at hs
    have hmerge : jsMerge target ((k₀, v₀) :: rest) = jsMerge (setKey target k₀ v₀) rest := rfl
    rw [hmerge, ih _ hs.2]
    by_cases hk : k = k₀
    · subst hk
      rw [lookupKey_eq_none_of_not_mem rest k hs.1]
      simp only [lookupKey, if_pos rfl, lookupKey_setKey, Option.none_or]
      simp
    · have hne : ¬(k₀ = k) := fun hh => hk hh.symm
      have hcons : lookupKey ((k₀, v₀) :: rest) k = lookupKey rest k := by
        simp only [lookupKey, if_neg hne]
      rw [hcons, lookupKey_setKey, if_neg hk]

theorem setKey_map_fst (l : List (String × String)) (k v : String) :
    (setKey l k v).map Prod.fst =
      if k ∈ l.map Prod.fst then l.map Prod.fst else l.map Prod.fst ++ [k] := by
  induction l with
  | nil => simp [setKey]
  | cons kv rest ih =>
    obtain ⟨k₀, v₀⟩ := kv
    by_cases h0 : k₀ = k
    · subst h0
      simp [setKey]
    · have hne : ¬(k = k₀) := fun hh => h0 hh.symm
      simp only [setKey, if_neg h0, List.map_cons, List.mem_cons, ih]
      by_cases hm : k ∈ rest.map Prod.fst
      · simp [hm, hne]
      · simp [hm, hne]

theorem setKey_nodup (l : List (String × String)) (k v : String)
    (h : (l.map Prod.fst).Nodup) : ((setKey l k v).map Prod.fst).Nodup := by
  rw [setKey_map_fst]
  by_cases hm : k ∈ l.map Prod.fst
  · simpa [hm] using h
  · simp [hm, List.nodup_append, h]

theorem jsMerge_nodup (target source : List (String × String))
    (h : (target.map Prod.fst).Nodup) :
    ((jsMerge target source).map Prod.fst).Nodup := by
  induction source generalizing target with
  | nil => exact h
  | cons kv rest ih => exact ih _ (setKey_nodup target kv.1 kv.2 h)

theorem mergedDependencies_nodup (manifest : Manifest) (dev peer optional : Bool)
    (h : (manifest.dependencies.map Prod.fst).Nodup) :
    ((mergedDependencies manifest dev peer optional).map Prod.fst).Nodup := by
  unfold mergedDependencies
  exact jsMerge_nodup _ _ (jsMerge_nodup _ _ (jsMerge_nodup _ _ h))

/-! ### C3: dependency-category merge precedence -/

/-- A manifest binding the same name in `devDependencies` and
`peerDependencies`, to settle the merge precedence. -/
def devPeerManifest : Manifest :=
  { name := "m", version := "1.0.0",
    devDependencies := [("x", "1.0.0")],
    peerDependencies := [("x", "2.0.0")] }

/-- C3, counterexample.  The claim says that on a collision the later
category wins «with precedence dev > peer > optional > runtime»; but with
`dev` and `peer` both enabled the peer range (`2.0.0`) overrides the dev
range (`1.0.0`), because `peerDependencies` is a LATER argument of lodash
`merge` than `devDependencies`. -/
theorem mergedDependencies_dev_does_not_beat_peer :
    getManifestDependencies devPeerManifest { dev := true, peer := true } =
      [("x", "2.0.0")] ∧
    getManifestDependencies devPeerManifest { dev := true, peer := true } ≠
      [("x", "1.0.0")] := by
  constructor
  · rfl
  · decide

/-- C3, amended.  The dependency map of `getManifestDependencies` is the
lodash merge of `dependencies`, then the option-gated `devDependencies`,
`peerDependencies` and `optionalDependencies`; on a key collision the
later merge argument wins, so the precedence is
optional > peer > dev > runtime (not dev > peer > optional). -/
theorem mergedDependencies_precedence :
    (∀ (manifest : Manifest) (dev peer optional : Bool) (name : String),
      (manifest.devDependencies.map Prod.fst).Nodup →
      (manifest.peerDependencies.map Prod.fst).Nodup →
      (manifest.optionalDependencies.map Prod.fst).Nodup →
      lookupKey (mergedDependencies manifest dev peer optional) name =
        ((if optional then lookupKey manifest.optionalDependencies name else none).or
          ((if peer then lookupKey manifest.peerDependencies name else none).or
            ((if dev then lookupKey manifest.devDependencies name else none).or
              (lookupKey manifest.dependencies name))))) ∧
    lookupKey (mergedDependencies devPeerManifest true true false) "x" =
      some "2.0.0" := by
  constructor
  · intro manifest dev peer optional name hdev hpeer hopt
    have hgate : ∀ (g : Bool) (l : List (String × String)),
        (l.map Prod.fst).Nodup →
        (((if g then l else []) : List (String × String)).map Prod.fst).Nodup := by
      intro g l hl; cases g <;> simp [hl]
    unfold mergedDependencies
    rw [lookupKey_jsMerge _ _ _ (hgate optional _ hopt),
      lookupKey_jsMerge _ _ _ (hgate peer _ hpeer),
      lookupKey_jsMerge _ _ _ (hgate dev _ hdev)]
    have hif : ∀ (g : Bool) (l : List (String × String)),
        lookupKey (if g then l else []) name =
          if g then lookupKey l name else none := by
      intro g l; cases g <;> rfl
    rw [hif, hif, hif]
  · rfl

/-- C3, witness for the amended theorem at a concrete manifest. -/
theorem mergedDependencies_precedence_witness :
    lookupKey (mergedDependencies devPeerManifest true true false) "x" =
      ((if false then lookupKey devPeerManifest.optionalDependencies "x" else none).or
        ((if true then lookupKey devPeerManifest.peerDependencies "x" else none).or
          ((if true then lookupKey devPeerManifest.devDependencies "x" else none).or
            (lookupKey devPeerManifest.dependencies "x")))) :=
  mergedDependencies_precedence.1 devPeerManifest true true false "x"
    (by decide) (by decide) (by decide)

/-! ### C4: the version coercer -/

/-- C4, counterexample.  The claim says a leading `^` is stripped and the
valid remainder `1.2.3` is returned, i.e. `^1.2.3` becomes `1.2.3`; the
code strips the caret only for the `semver.valid` TEST, then returns the
ORIGINAL range string `^1.2.3` unchanged. -/
theorem coerceQueryVersion_keeps_caret :
    coerceQueryVersion "^1.2.3" = "^1.2.3" ∧
    coerceQueryVersion "^1.2.3" ≠ "1.2.3" := by
  constructor
  · rfl
  · decide

/-- C4, amended.  `coerceQueryVersion` removes the first `^` and the
first `~` to obtain the test string; when that test string is valid
concrete semver the ORIGINAL range string is returned unchanged (so
`^1.2.3` stays `^1.2.3`); otherwise the first contiguous `N[.N[.N]]`
substring is zero-filled (`1.2` becomes `1.2.0`), and `latest` is
returned when no numeric part exists.  The function is pure and total. -/
theorem coerceQueryVersion_characterization :
    (∀ version clean : String,
      clean = jsStringReplace (jsStringReplace version '^' "") '~' "" →
      (semverValid clean = true → coerceQueryVersion version = version) ∧
      (semverValid clean = false →
        coerceQueryVersion version = (semverCoerce clean).getD "latest")) ∧
    coerceQueryVersion "1.2" = "1.2.0" ∧
    coerceQueryVersion "^1.2.3" = "^1.2.3" ∧
    coerceQueryVersion "garbage" = "latest" := by
  refine ⟨?_, rfl, rfl, rfl⟩
  intro version clean hc
  constructor
  · intro h
    simp only [coerceQueryVersion, ← hc, h, if_true]
  · intro h
    simp only [coerceQueryVersion, ← hc, h, Bool.false_eq_true, if_false]
    cases semverCoerce clean <;> rfl

/-- C4, witness for the amended theorem: a concrete valid input and a
concrete coerced input. -/
theorem coerceQueryVersion_characterization_witness :
    coerceQueryVersion "1.2.3" = "1.2.3" ∧
    coerceQueryVersion "1.2" = (semverCoerce "1.2").getD "latest" :=
  ⟨(coerceQueryVersion_characterization.1 "1.2.3" "1.2.3" (by rfl)).1 (by rfl),
   (coerceQueryVersion_characterization.1 "1.2" "1.2" (by rfl)).2 (by rfl)⟩

/-! ### C5: manifest fetch fallbacks -/

/-- Registry for the spec's target-missing scenario: `x@9.9.9` is answered
with `ETARGET` carrying `distTags.latest = 1.0.0`. -/
def etargetReg : Registry :=
  { manifests :=
      [ (("x", "9.9.9"),
          .err { code := "ETARGET", message := "no matching version",
                 distTagsLatest := "1.0.0" })
      , (("x", "1.0.0"), .ok { name := "x", version := "1.0.0" }) ],
    packuments := [("x", .ok { distTagsLatest := "1.0.0" })] }

/-- Root manifest seeding `x@9.9.9`. -/
def etargetRoot : Manifest :=
  { name := "root", version := "1.0.0", dependencies := [("x", "9.9.9")] }

/-- C5.  The manifest fetch retries exactly once: on `ETARGET` with the
`latest` tag from the error's `distTags` payload; on `E404` with the
`latest` tag provided the original query was not already `latest`,
otherwise an error is surfaced; any other error is surfaced unchanged.
End to end, a seed `x@9.9.9` answered with `ETARGET(distTags.latest =
1.0.0)` resolves to the single output element `x@1.0.0`. -/
theorem getPackageManifest_fallback_policy :
    (∀ (reg : Registry) (name version : String),
      (∀ m, reg.manifestAt name version = RegResult.ok m →
        manifestWithFallback reg name version = RegResult.ok m) ∧
      (∀ e, reg.manifestAt name version = RegResult.err e →
        (e.code = "ETARGET" →
          manifestWithFallback reg name version =
            reg.manifestAt name e.distTagsLatest) ∧
        (e.code = "E404" → version ≠ "latest" →
          manifestWithFallback reg name version = reg.manifestAt name "latest") ∧
        (e.code = "E404" → version = "latest" →
          manifestWithFallback reg name version =
            RegResult.err { message := name ++ "@" ++ version ++ " not found" }) ∧
        (e.code ≠ "ETARGET" → e.code ≠ "E404" →
          manifestWithFallback reg name version = RegResult.err e))) ∧
    (resolveDependenciesTop etargetReg etargetRoot {}).1 =
      [{ name := "x", version := "1.0.0", isLatest := true }] := by
  constructor
  · intro reg name version
    constructor
    · intro m hm
      simp only [manifestWithFallback, hm]
    · intro e he
      refine ⟨?_, ?_, ?_, ?_⟩
      · intro hcode
        simp only [manifestWithFallback, he, hcode, if_true]
      · intro hcode hv
        simp [manifestWithFallback, he, hcode, hv]
      · intro hcode hv
        subst hv
        simp [manifestWithFallback, he, hcode]
      · intro h1 h2
        simp only [manifestWithFallback, he]
        rw [if_neg h1, if_neg h2]
  · rfl

/-- C5, witness: the `ETARGET` retry at the concrete registry. -/
theorem getPackageManifest_fallback_policy_witness :
    manifestWithFallback etargetReg "x" "9.9.9" =
      etargetReg.manifestAt "x"
        (NpmError.distTagsLatest
          { code := "ETARGET", message := "no matching version",
            distTagsLatest := "1.0.0" }) :=
  ((getPackageManifest_fallback_policy.1 etargetReg "x" "9.9.9").2
    { code := "ETARGET", message := "no matching version", distTagsLatest := "1.0.0" }
    (by rfl)).1 (by rfl)

/-! ### C6: the isLatest determination -/

/-- A registry whose manifest for `x@1.0.0` succeeds but whose packument
request for `x` fails. -/
def packumentFailReg : Registry :=
  { manifests := [(("x", "1.0.0"), .ok { name := "x", version := "1.0.0" })],
    packuments := [] }

/-- C6, counterexample.  The claim says that when the packument fetch
fails the edge still resolves with `isLatest = false`; in the code the
packument arm of the `Promise.all` has no catch, so the whole
`getPackageManifest` call rejects and the edge is dropped. -/
theorem getPackageManifest_packument_failure_rejects :
    getPackageManifest packumentFailReg "x" "1.0.0" =
      RegResult.err { code := "E404", message := "x missing" } := rfl

/-- C6, amended.  When the query version is the literal `latest`,
`isLatest` is `true` and no packument is consulted; otherwise the
packument is fetched and `isLatest = (dist-tags.latest == concrete
version)`; but a packument failure rejects the whole manifest query (the
resolver then drops the edge) instead of degrading to `isLatest = false`. -/
theorem getPackageManifest_isLatest_policy :
    (∀ (reg : Registry) (name : String) (m : Manifest),
      manifestWithFallback reg name "latest" = RegResult.ok m →
      getPackageManifest reg name "latest" =
        RegResult.ok { toManifest := m, isLatest := true }) ∧
    (∀ (reg : Registry) (name version : String) (m : Manifest) (pk : Packument),
      version ≠ "latest" →
      manifestWithFallback reg name version = RegResult.ok m →
      reg.packumentAt name = RegResult.ok pk →
      getPackageManifest reg name version =
        RegResult.ok { toManifest := m, isLatest := pk.distTagsLatest == m.version }) ∧
    (∀ (reg : Registry) (name version : String) (m : Manifest) (e : NpmError),
      version ≠ "latest" →
      manifestWithFallback reg name version = RegResult.ok m →
      reg.packumentAt name = RegResult.err e →
      getPackageManifest reg name version = RegResult.err e) := by
  refine ⟨?_, ?_, ?_⟩
  · intro reg name m hm
    simp [getPackageManifest, hm]
  · intro reg name version m pk hv hm hpk
    simp only [getPackageManifest, hm]
    rw [if_pos hv, hpk]
  · intro reg name version m e hv hm hpk
    simp only [getPackageManifest, hm]
    rw [if_pos hv, hpk]

/-- C6, witness: both the packument-consulting path and the rejecting
path at concrete registries. -/
theorem getPackageManifest_isLatest_policy_witness :
    getPackageManifest etargetReg "x" "9.9.9" =
      RegResult.ok { name := "x", version := "1.0.0",
                     isLatest := ("1.0.0" == "1.0.0") } ∧
    getPackageManifest packumentFailReg "x" "1.0.0" =
      RegResult.err { code := "E404", message := "x missing" } :=
  ⟨getPackageManifest_isLatest_policy.2.1 etargetReg "x" "9.9.9"
      { name := "x", version := "1.0.0" } { distTagsLatest := "1.0.0" }
      (by decide) (by rfl) (by rfl),
   getPackageManifest_isLatest_policy.2.2 packumentFailReg "x" "1.0.0"
      { name := "x", version := "1.0.0" } { code := "E404", message := "x missing" }
      (by decide) (by rfl) (by rfl)⟩

/-! ### The downloader: settlement, cache and file characterizations -/

/-- Whether the tarball fetch/write for a package succeeds. -/
def tarballOk (net : TarballNet) (p : Resolved) : Bool :=
  match net p.name p.version with
  | .ok _ => true
  | .error _ => false

theorem mem_cacheAdd (c : List Pair) (p q : Pair) :
    q ∈ cacheAdd c p ↔ q ∈ c ∨ q = p := by
  unfold cacheAdd
  by_cases h : p ∈ c
  · rw [if_pos (List.elem_iff.mpr h)]
    constructor
    · exact Or.inl
    · rintro (hq | rfl)
      · exact hq
      · exact h
  · rw [if_neg (fun hc => h (List.elem_iff.mp hc))]
    simp

theorem downloadLoop_settlements (net : TarballNet) (options : DlOptions)
    (len : Nat) : ∀ (l : List Resolved) (st : DlState),
    (downloadLoop net options len l st).1 =
      l.map (fun p =>
        if tarballOk net p then Settlement.fulfilled (some p)
        else Settlement.fulfilled none) := by
  intro l
  induction l with
  | nil => intro st; rfl
  | cons p rest ih =>
    intro st
    simp only [downloadLoop, downloadPackageTarball, List.map_cons]
    cases h : net p.name p.version <;>
      simp [tarballOk, h, ih]

theorem downloadLoop_files (net : TarballNet) (options : DlOptions)
    (len : Nat) : ∀ (l : List Resolved) (st : DlState),
    (downloadLoop net options len l st).2.files =
      st.files ++ (l.filter (fun p => tarballOk net p)).map
        (fun p => options.destFolder ++ "/" ++ jsStringReplace p.name '/' "-" ++
          "-" ++ p.version ++ (if p.isLatest then "-latest" else "") ++ ".tgz") := by
  intro l
  induction l with
  | nil => intro st; simp [downloadLoop]
  | cons p rest ih =>
    intro st
    simp only [downloadLoop, downloadPackageTarball]
    cases h : net p.name p.version <;>
      simp [tarballOk, h, ih, List.filter_cons]

theorem downloadLoop_cache_mem (net : TarballNet) (options : DlOptions)
    (len : Nat) : ∀ (l : List Resolved) (st : DlState) (q : Pair),
    q ∈ (downloadLoop net options len l st).2.cache ↔
      q ∈ st.cache ∨ (options.useCache = true ∧
        ∃ p ∈ l, tarballOk net p = true ∧ (p.name, p.version) = q) := by
  intro l
  induction l with
  | nil =>
    intro st q
    simp [downloadLoop]
  | cons p rest ih =>
    intro st q
    simp only [downloadLoop, downloadPackageTarball]
    cases h : net p.name p.version with
    | ok u =>
      cases hc : options.useCache with
      | false =>
        simp [ih, tarballOk, h, hc, List.exists_mem_cons_iff]
      | true =>
        simp [ih, tarballOk, h, hc, mem_cacheAdd, List.exists_mem_cons_iff]
        tauto
    | error e =>
      simp [ih, tarballOk, h, List.exists_mem_cons_iff]

/-! ### C1: downloader error handling -/

/-- A tarball network where every fetch fails. -/
def failingNet : TarballNet := fun _ _ => .error "ECONNRESET"

/-- A sample resolved package for the downloader counterexample. -/
def pkgA : Resolved := { name := "a", version := "1.0.0", isLatest := false }

/-- C1, counterexample.  The claim says a failed tarball fetch is
reported as a REJECTION in the result sequence; but the per-item
`.catch(error => { handlerError(error); return null; })` runs before
`Promise.allSettled` sees the promise, so the failed element settles as
`fulfilled(null)` — no rejection ever appears (the cache is indeed left
untouched). -/
theorem downloadPackages_failure_not_rejected :
    (downloadPackages failingNet [pkgA] { useCache := true } []).1 =
      [Settlement.fulfilled none] ∧
    ((downloadPackages failingNet [pkgA] { useCache := true } []).1.filter
      (fun s => s.isRejection)) = [] ∧
    (downloadPackages failingNet [pkgA] { useCache := true } []).2.cache = [] :=
  ⟨rfl, rfl, rfl⟩

/-- C1, amended.  Every element of the settled batch settles as
`fulfilled`: a successful download fulfills with the resolved package, a
failed fetch/write is caught, logged and fulfills with `null` (never a
rejection), the batch settles every remaining element, and the tarball
cache gains exactly the pairs of the successfully downloaded elements
(never a failed one). -/
theorem downloadPackages_settlement_policy :
    ∀ (net : TarballNet) (packages : List Resolved) (options : DlOptions)
      (cache0 : List Pair),
      (downloadPackages net packages options cache0).1 =
        (if options.useCache then
            packages.filter (fun p => !(cacheExist cache0 p.name p.version))
          else packages).map
          (fun p => if tarballOk net p then Settlement.fulfilled (some p)
            else Settlement.fulfilled none) ∧
      (∀ s ∈ (downloadPackages net packages options cache0).1,
        s.isRejection = false) ∧
      (∀ q : Pair, q ∈ (downloadPackages net packages options cache0).2.cache ↔
        q ∈ cache0 ∨ (options.useCache = true ∧
          ∃ p ∈ (if options.useCache then
              packages.filter (fun p => !(cacheExist cache0 p.name p.version))
            else packages),
            tarballOk net p = true ∧ (p.name, p.version) = q)) := by
  intro net packages options cache0
  have h1 : (downloadPackages net packages options cache0).1 =
      (if options.useCache then
          packages.filter (fun p => !(cacheExist cache0 p.name p.version))
        else packages).map
        (fun p => if tarballOk net p then Settlement.fulfilled (some p)
          else Settlement.fulfilled none) :=
    downloadLoop_settlements net options _ _ _
  refine ⟨h1, ?_, ?_⟩
  · intro s hs
    rw [h1] at hs
    obtain ⟨p, _, hp⟩ := List.mem_map.mp hs
    by_cases h : tarballOk net p = true <;>
      simp [h] at hp <;> simp [← hp, Settlement.isRejection]
  · intro q
    exact downloadLoop_cache_mem net options _ _ _ q

/-! ### C7: the output filename schema -/

/-- C7.  Each successfully downloaded element writes exactly one file,
whose path is `destFolder`, a slash, the package name with its slash
replaced by a hyphen, a hyphen, the version, `-latest` iff `isLatest`,
and `.tgz`; failed elements write nothing.  In particular a scoped
package `@scope/foo` at `1.2.3` marked latest is written as
`@scope-foo-1.2.3-latest.tgz`. -/
theorem downloadPackages_filename_schema :
    (∀ (net : TarballNet) (packages : List Resolved) (options : DlOptions)
      (cache0 : List Pair),
      (downloadPackages net packages options cache0).2.files =
        ((if options.useCache then
            packages.filter (fun p => !(cacheExist cache0 p.name p.version))
          else packages).filter (fun p => tarballOk net p)).map
          (fun p => options.destFolder ++ "/" ++ jsStringReplace p.name '/' "-" ++
            "-" ++ p.version ++ (if p.isLatest then "-latest" else "") ++ ".tgz")) ∧
    (downloadPackageTarball (fun _ _ => Except.ok ()) "@scope/foo" "1.2.3"
      "dest" true).2 = ["dest/@scope-foo-1.2.3-latest.tgz"] ∧
    (downloadPackageTarball (fun _ _ => Except.ok ()) "c" "1.0.0"
      "dest" false).2 = ["dest/c-1.0.0.tgz"] := by
  refine ⟨?_, rfl, rfl⟩
  intro net packages options cache0
  have h := downloadLoop_files net options
    (if options.useCache then
        packages.filter (fun p => !(cacheExist cache0 p.name p.version))
      else packages).length
    (if options.useCache then
        packages.filter (fun p => !(cacheExist cache0 p.name p.version))
      else packages)
    { cache := cache0 }
  simpa [downloadPackages] using h

/-! ### Concrete registries for the resolver claims -/

/-- A registry with the dependency cycle `a@1.0.0 → b@1.0.0 → a@1.0.0`. -/
def cycleReg : Registry :=
  { manifests :=
      [ (("a", "1.0.0"),
          .ok { name := "a", version := "1.0.0", dependencies := [("b", "1.0.0")] })
      , (("b", "1.0.0"),
          .ok { name := "b", version := "1.0.0", dependencies := [("a", "1.0.0")] }) ],
    packuments :=
      [ ("a", .ok { distTagsLatest := "1.0.0" })
      , ("b", .ok { distTagsLatest := "1.0.0" }) ] }

/-- Root manifest seeding the cycle at `a@1.0.0`. -/
def cycleRoot : Manifest :=
  { name := "root", version := "1.0.0", dependencies := [("a", "1.0.0")] }

/-- A registry with two independent leaf packages `a` and `b`. -/
def progressReg : Registry :=
  { manifests :=
      [ (("a", "1.0.0"), .ok { name := "a", version := "1.0.0" })
      , (("b", "1.0.0"), .ok { name := "b", version := "1.0.0" }) ],
    packuments :=
      [ ("a", .ok { distTagsLatest := "1.0.0" })
      , ("b", .ok { distTagsLatest := "1.0.0" }) ] }

/-- Root manifest with the two root edges `a@1.0.0` and `b@1.0.0`. -/
def progressRoot : Manifest :=
  { name := "root", version := "1.0.0",
    dependencies := [("a", "1.0.0"), ("b", "1.0.0")] }

/-! ### C9: progress accounting -/

/-- C9.  The code intends (per its own comment «Add the current percent
to progress bar (calculate only in packages at the top of the tree)») to
advance the fraction by `1 / rootEdgeCount` after each completed root
subtree, but `Object.assign(options, { depth: options.depth + 1 })`
mutates the shared options object and never restores it, so the guard
`options.depth === 0` is false from the first child onwards and the
fraction never advances.  Evaluated at a root with two leaf edges: both
resolve, yet every logger event carries fraction 0 and the final fraction
is 0 instead of 1/2 then 1. -/
theorem resolveDependencies_progress_never_advances :
    (resolveDependenciesTop progressReg progressRoot {}).1 =
      [{ name := "a", version := "1.0.0", isLatest := true },
       { name := "b", version := "1.0.0", isLatest := true }] ∧
    (resolveDependenciesTop progressReg progressRoot {}).2.events =
      [("Resolving dependencies: a@1.0.0", 0),
       ("Resolving dependencies: b@1.0.0", 0)] ∧
    (resolveDependenciesTop progressReg progressRoot {}).2.opts.progress =
      some 0 :=
  ⟨rfl, rfl, rfl⟩

/-! ### C10: mutation of the shared options object -/

/-- The option fields `resolveDependencies` never touches. -/
def optsFrame (o o' : Options) : Prop :=
  o'.dev = o.dev ∧ o'.peer = o.peer ∧ o'.optional = o.optional ∧
    o'.registry = o.registry

theorem optsFrame_refl (o : Options) : optsFrame o o := ⟨rfl, rfl, rfl, rfl⟩

theorem optsFrame_trans {o o' o'' : Options} (h : optsFrame o o')
    (h' : optsFrame o' o'') : optsFrame o o'' :=
  ⟨h'.1.trans h.1, h'.2.1.trans h.2.1, h'.2.2.1.trans h.2.2.1,
    h'.2.2.2.trans h.2.2.2⟩

theorem optsFrame_depth (o : Options) (d : Option Nat) :
    optsFrame o { o with depth := d } := ⟨rfl, rfl, rfl, rfl⟩

theorem optsFrame_progress (o : Options) (q : Option Rat) :
    optsFrame o { o with progress := q } := ⟨rfl, rfl, rfl, rfl⟩

theorem optsFrame_depth_progress (o : Options) (d : Option Nat) (q : Option Rat) :
    optsFrame o { o with depth := d, progress := q } := ⟨rfl, rfl, rfl, rfl⟩

theorem addLevel_opts (st : RState) (manifests : List ManifestL) :
    (addLevel st manifests).opts = st.opts := by
  induction manifests generalizing st with
  | nil => rfl
  | cons m rest ih => exact ih _

theorem addLevel_visited (st : RState) (manifests : List ManifestL) :
    (addLevel st manifests).visited =
      st.visited ++ manifests.map (fun m => (m.name, m.version)) := by
  induction manifests generalizing st with
  | nil => simp [addLevel]
  | cons m rest ih =>
    show (addLevel _ rest).visited = _
    rw [ih]
    simp

theorem bumpDepth_frame (st : RState) : optsFrame st.opts (bumpDepth st).opts :=
  ⟨rfl, rfl, rfl, rfl⟩

theorem initDepthProgress_frame (st : RState) :
    optsFrame st.opts (initDepthProgress st).opts := ⟨rfl, rfl, rfl, rfl⟩

theorem rootProgressStep_frame (n : Nat) (st : RState) :
    optsFrame st.opts (rootProgressStep n st).opts := by
  unfold rootProgressStep
  split
  · exact optsFrame_progress _ _
  · exact optsFrame_refl _

/-- The progress step is dead code once the shared depth has been bumped
away from 0: it leaves the state untouched. -/
theorem rootProgressStep_eq_of_depth_pos (n : Nat) (st : RState) (d : Nat)
    (hd : st.opts.depth = some d) (h1 : 1 ≤ d) :
    rootProgressStep n st = st := by
  unfold rootProgressStep
  rw [hd, if_neg (by intro h; cases h; omega)]

theorem resolveChildren_frame
    (recur : Manifest → RState → List Resolved × RState)
    (Hrec : ∀ m s, optsFrame s.opts (recur m s).2.opts) (depCount : Nat) :
    ∀ (ms : List ManifestL) (st : RState),
      optsFrame st.opts (resolveChildren recur depCount ms st).2.opts := by
  intro ms
  induction ms with
  | nil => intro st; exact optsFrame_refl _
  | cons cur rest ih =>
    intro st
    simp only [resolveChildren]
    exact optsFrame_trans
      (optsFrame_trans
        (optsFrame_trans (bumpDepth_frame st) (Hrec cur.toManifest (bumpDepth st)))
        (rootProgressStep_frame depCount _))
      (ih _)

theorem resolveDependencies_frame (reg : Registry) :
    ∀ (fuel : Nat) (m : Manifest) (st : RState),
      optsFrame st.opts (resolveDependencies reg fuel m st).2.opts := by
  intro fuel
  induction fuel with
  | zero => intro m st; exact optsFrame_refl _
  | succ fuel ih =>
    intro m st
    simp only [resolveDependencies]
    split
    · exact optsFrame_refl _
    · refine optsFrame_trans ?_
        (resolveChildren_frame _ (fun m' s' => ih m' s') _ _ _)
      rw [addLevel_opts]
      exact initDepthProgress_frame st

theorem resolveChildren_progress_inv
    (recur : Manifest → RState → List Resolved × RState)
    (Hrec : ∀ (m : Manifest) (s : RState) (d : Nat) (q : Rat),
      s.opts.depth = some d → 1 ≤ d → s.opts.progress = some q →
      (∃ d', (recur m s).2.opts.depth = some d' ∧ 1 ≤ d') ∧
        (recur m s).2.opts.progress = some q)
    (depCount : Nat) :
    ∀ (ms : List ManifestL) (st : RState) (d : Nat) (q : Rat),
      st.opts.depth = some d → st.opts.progress = some q →
      (resolveChildren recur depCount ms st).2.opts.progress = some q ∧
      ∃ d', (resolveChildren recur depCount ms st).2.opts.depth = some d' ∧
        (1 ≤ d' ∨ (ms = [] ∧ d' = d)) := by
  intro ms
  induction ms with
  | nil =>
    intro st d q hd hq
    exact ⟨hq, d, hd, Or.inr ⟨rfl, rfl⟩⟩
  | cons cur rest ih =>
    intro st d q hd hq
    have hbd : (bumpDepth st).opts.depth = some (st.opts.depth.getD 0 + 1) := rfl
    have hbq : (bumpDepth st).opts.progress = some q := hq
    obtain ⟨⟨d2, hd2, hd2ge⟩, hq2⟩ :=
      Hrec cur.toManifest (bumpDepth st) _ q hbd (Nat.le_add_left 1 _) hbq
    have hstep : rootProgressStep depCount (recur cur.toManifest (bumpDepth st)).2 =
        (recur cur.toManifest (bumpDepth st)).2 :=
      rootProgressStep_eq_of_depth_pos _ _ d2 hd2 hd2ge
    obtain ⟨ihq, d', hd', hcase⟩ :=
      ih ((recur cur.toManifest (bumpDepth st)).2) d2 q hd2 hq2
    simp only [resolveChildren, hstep]
    refine ⟨ihq, d', hd', Or.inl ?_⟩
    rcases hcase with h | ⟨_, rfl⟩
    · exact h
    · exact hd2ge

theorem resolveDependencies_progress_inv (reg : Registry) :
    ∀ (fuel : Nat) (m : Manifest) (st : RState) (d : Nat) (q : Rat),
      st.opts.depth = some d → 1 ≤ d → st.opts.progress = some q →
      (∃ d', (resolveDependencies reg fuel m st).2.opts.depth = some d' ∧ 1 ≤ d') ∧
        (resolveDependencies reg fuel m st).2.opts.progress = some q := by
  intro fuel
  induction fuel with
  | zero =>
    intro m st d q hd hdge hq
    exact ⟨⟨d, hd, hdge⟩, hq⟩
  | succ fuel ih =>
    intro m st d q hd hdge hq
    simp only [resolveDependencies]
    split
    · exact ⟨⟨d, hd, hdge⟩, hq⟩
    · have hd1 : (addLevel (initDepthProgress st)
          (levelManifests reg (initDepthProgress st)
            (getManifestDependencies m st.opts))).opts.depth = some d := by
        rw [addLevel_opts]
        show some (st.opts.depth.getD 0) = some d
        rw [hd]
        rfl
      have hq1 : (addLevel (initDepthProgress st)
          (levelManifests reg (initDepthProgress st)
            (getManifestDependencies m st.opts))).opts.progress = some q := by
        rw [addLevel_opts]
        show some (st.opts.progress.getD 0) = some q
        rw [hq]
        rfl
      obtain ⟨cq, d', hd', hcase⟩ :=
        resolveChildren_progress_inv _
          (fun m' s' d' q' hd' h1' hq' => ih m' s' d' q' hd' h1' hq') _
          (levelManifests reg (initDepthProgress st)
            (getManifestDependencies m st.opts)) _ d q hd1 hq1
      refine ⟨⟨d', hd', ?_⟩, cq⟩
      rcases hcase with h | ⟨_, rfl⟩
      · exact h
      · exact hdge

/-- C10, counterexample.  The claim says `resolveDependencies` increments
BOTH `depth` and `progress` in place during recursion.  On a run that
resolves two packages through a recursive step, the final shared options
object indeed keeps a mutated `depth` (2, never restored), but `progress`
ends at its initialised value 0: the progress increment is dead code and
never runs. -/
theorem resolveDependencies_progress_not_incremented :
    (resolveDependenciesTop cycleReg cycleRoot {}).1.length = 2 ∧
    (resolveDependenciesTop cycleReg cycleRoot {}).2.opts.depth = some 2 ∧
    (resolveDependenciesTop cycleReg cycleRoot {}).2.opts.progress = some 0 :=
  ⟨rfl, rfl, rfl⟩

/-- C10, amended.  `resolveDependencies` mutates the caller's options
object: it writes `depth` and `progress` into it; `depth` is incremented
in place during recursion (via `Object.assign` on the shared object) and
never restored, so after a call that resolved at least one package the
caller's object holds `depth ≥ 1` and cannot be reused as fresh depth-0
state; `progress` is initialised to 0 but never advanced; the fields
`dev`, `peer`, `optional` and `registry` are unchanged. -/
theorem resolveDependencies_mutates_shared_options :
    ∀ (reg : Registry) (fuel : Nat) (manifest : Manifest) (st : RState),
      st.opts.depth = none → st.opts.progress = none →
      ((resolveDependencies reg fuel manifest st).2.opts.dev = st.opts.dev ∧
       (resolveDependencies reg fuel manifest st).2.opts.peer = st.opts.peer ∧
       (resolveDependencies reg fuel manifest st).2.opts.optional = st.opts.optional ∧
       (resolveDependencies reg fuel manifest st).2.opts.registry = st.opts.registry) ∧
      ((resolveDependencies reg fuel manifest st).1 ≠ [] →
        (∃ d, (resolveDependencies reg fuel manifest st).2.opts.depth = some d ∧
          1 ≤ d) ∧
        (resolveDependencies reg fuel manifest st).2.opts.progress = some 0) := by
  intro reg fuel manifest st hd hq
  obtain ⟨f1, f2, f3, f4⟩ := resolveDependencies_frame reg fuel manifest st
  refine ⟨⟨f1, f2, f3, f4⟩, ?_⟩
  intro hne
  cases fuel with
  | zero => exact absurd rfl hne
  | succ fuel =>
    simp only [resolveDependencies] at hne ⊢
    by_cases hdeps : (getManifestDependencies manifest st.opts).isEmpty
    · rw [if_pos hdeps] at hne
      exact absurd rfl hne
    · rw [if_neg hdeps] at hne ⊢
      have hd2 : (addLevel (initDepthProgress st)
          (levelManifests reg (initDepthProgress st)
            (getManifestDependencies manifest st.opts))).opts.depth = some 0 := by
        rw [addLevel_opts]
        show some (st.opts.depth.getD 0) = some 0
        rw [hd]
        rfl
      have hq2 : (addLevel (initDepthProgress st)
          (levelManifests reg (initDepthProgress st)
            (getManifestDependencies manifest st.opts))).opts.progress = some 0 := by
        rw [addLevel_opts]
        show some (st.opts.progress.getD 0) = some 0
        rw [hq]
        rfl
      obtain ⟨cq, d', hd', hcase⟩ :=
        resolveChildren_progress_inv _
          (fun m' s' d' q' hd' h1' hq' =>
            resolveDependencies_progress_inv reg fuel m' s' d' q' hd' h1' hq') _
          (levelManifests reg (initDepthProgress st)
            (getManifestDependencies manifest st.opts)) _ 0 0 hd2 hq2
      refine ⟨⟨d', hd', ?_⟩, cq⟩
      rcases hcase with h | ⟨hms, _⟩
      · exact h
      · rw [hms] at hne
        exact absurd rfl hne

/-- C10, witness: the amended theorem applied to the concrete cycle
registry. -/
theorem resolveDependencies_mutates_shared_options_witness :
    (resolveDependencies cycleReg (resolveBound cycleReg) cycleRoot
      { visited := [], opts := {}, events := [] }).2.opts.progress = some 0 :=
  ((resolveDependencies_mutates_shared_options cycleReg (resolveBound cycleReg)
      cycleRoot { visited := [], opts := {}, events := [] } rfl rfl).2
    (by decide)).2

/-! ### C8: termination of the resolve pass -/

theorem rootProgressStep_visited (n : Nat) (st : RState) :
    (rootProgressStep n st).visited = st.visited := by
  unfold rootProgressStep
  split <;> rfl

/-- The concrete `(name, version)` pairs of the manifests the registry can
successfully serve: every pair ever added to the visited set comes from
this finite list. -/
def Registry.okPairs (reg : Registry) : List Pair :=
  reg.manifests.filterMap
    (fun e => match e.2 with
      | .ok m => some (m.name, m.version)
      | .err _ => none)

theorem manifestAt_ok_mem_okPairs (reg : Registry) (name version : String)
    (m : Manifest) (h : reg.manifestAt name version = RegResult.ok m) :
    (m.name, m.version) ∈ reg.okPairs := by
  unfold Registry.manifestAt at h
  rcases hf : reg.manifests.find? (fun e => e.1 = (name, version)) with _ | e
  · rw [hf] at h
    exact absurd h (by simp)
  · rw [hf] at h
    have h2 : e.2 = RegResult.ok m := h
    refine List.mem_filterMap.mpr ⟨e, List.mem_of_find?_eq_some hf, ?_⟩
    rw [h2]

theorem manifestWithFallback_of_ok (reg : Registry) (name version : String)
    (m : Manifest) (h : reg.manifestAt name version = RegResult.ok m) :
    manifestWithFallback reg name version = RegResult.ok m := by
  unfold manifestWithFallback
  rw [h]

theorem manifestWithFallback_of_err (reg : Registry) (name version : String)
    (e : NpmError) (h : reg.manifestAt name version = RegResult.err e) :
    manifestWithFallback reg name version =
      (if e.code = "ETARGET" then reg.manifestAt name e.distTagsLatest
       else if e.code = "E404" then
         if version ≠ "latest" then reg.manifestAt name "latest"
         else RegResult.err { message := name ++ "@" ++ version ++ " not found" }
       else RegResult.err e) := by
  unfold manifestWithFallback
  rw [h]

theorem manifestWithFallback_ok_mem_okPairs (reg : Registry)
    (name version : String) (m : Manifest)
    (h : manifestWithFallback reg name version = RegResult.ok m) :
    (m.name, m.version) ∈ reg.okPairs := by
  rcases h0 : reg.manifestAt name version with m0 | e0
  · rw [manifestWithFallback_of_ok reg name version m0 h0] at h
    have h2 : m0 = m := by
      simpa using h
    subst h2
    exact manifestAt_ok_mem_okPairs reg name version m0 h0
  · rw [manifestWithFallback_of_err reg name version e0 h0] at h
    by_cases h1 : e0.code = "ETARGET"
    · rw [if_pos h1] at h
      exact manifestAt_ok_mem_okPairs reg name _ m h
    · rw [if_neg h1] at h
      by_cases h2 : e0.code = "E404"
      · rw [if_pos h2] at h
        by_cases h3 : version ≠ "latest"
        · rw [if_pos h3] at h
          exact manifestAt_ok_mem_okPairs reg name _ m h
        · rw [if_neg h3] at h
          exact absurd h (by simp)
      · rw [if_neg h2] at h
        exact absurd h (by simp)

theorem getPackageManifest_of_err (reg : Registry) (name version : String)
    (e : NpmError) (h : manifestWithFallback reg name version = RegResult.err e) :
    getPackageManifest reg name version = RegResult.err e := by
  unfold getPackageManifest
  rw [h]

theorem getPackageManifest_of_ok (reg : Registry) (name version : String)
    (m : Manifest) (h : manifestWithFallback reg name version = RegResult.ok m) :
    getPackageManifest reg name version =
      (if version ≠ "latest" then
        match reg.packumentAt name with
        | .err e => RegResult.err e
        | .ok pk =>
          RegResult.ok ⟨m, pk.distTagsLatest == m.version⟩
      else RegResult.ok { toManifest := m, isLatest := true }) := by
  unfold getPackageManifest
  rw [h]

theorem getPackageManifest_ok_mem_okPairs (reg : Registry)
    (name version : String) (ml : ManifestL)
    (h : getPackageManifest reg name version = RegResult.ok ml) :
    (ml.name, ml.version) ∈ reg.okPairs := by
  rcases h0 : manifestWithFallback reg name version with m0 | e0
  · rw [getPackageManifest_of_ok reg name version m0 h0] at h
    have hmem := manifestWithFallback_ok_mem_okPairs reg name version m0 h0
    by_cases h1 : version ≠ "latest"
    · rw [if_pos h1] at h
      rcases h2 : reg.packumentAt name with pk | e
      · rw [h2] at h
        have h3 : (⟨m0, pk.distTagsLatest == m0.version⟩ : ManifestL) = ml := by
          simpa using h
        rw [← h3]
        exact hmem
      · rw [h2] at h
        exact absurd h (by simp)
    · rw [if_neg h1] at h
      have h3 : (⟨m0, true⟩ : ManifestL) = ml := by
        simpa using h
      rw [← h3]
      exact hmem
  · rw [getPackageManifest_of_err reg name version e0 h0] at h
    exact absurd h (by simp)

theorem levelManifests_mem (reg : Registry) (st : RState)
    (dependencies : List (String × String)) (cur : ManifestL)
    (h : cur ∈ levelManifests reg st dependencies) :
    (cur.name, cur.version) ∈ reg.okPairs ∧
      (cur.name, cur.version) ∉ st.visited := by
  unfold levelManifests at h
  obtain ⟨hmem, hpred⟩ := List.mem_filter.mp h
  refine ⟨?_, ?_⟩
  · obtain ⟨r, hr, hcur⟩ := List.mem_filterMap.mp hmem
    obtain ⟨d, _, hd⟩ := List.mem_map.mp hr
    rcases r with m0 | e0
    · cases hcur
      exact getPackageManifest_ok_mem_okPairs reg d.1 d.2 cur hd
    · exact absurd hcur (by simp)
  · intro hv
    rw [Bool.not_eq_eq_eq_not, Bool.not_true] at hpred
    have hc : st.visited.contains (cur.name, cur.version) = true :=
      List.elem_iff.mpr hv
    rw [hpred] at hc
    exact Bool.false_ne_true hc

theorem resolveChildren_visited_mono
    (recur : Manifest → RState → List Resolved × RState)
    (Hrec : ∀ m s p, p ∈ s.visited → p ∈ (recur m s).2.visited) (depCount : Nat) :
    ∀ (ms : List ManifestL) (st : RState) (p : Pair),
      p ∈ st.visited → p ∈ (resolveChildren recur depCount ms st).2.visited := by
  intro ms
  induction ms with
  | nil => intro st p hp; exact hp
  | cons cur rest ih =>
    intro st p hp
    simp only [resolveChildren]
    refine ih _ p ?_
    rw [rootProgressStep_visited]
    exact Hrec cur.toManifest (bumpDepth st) p hp

theorem resolveDependencies_visited_mono (reg : Registry) :
    ∀ (fuel : Nat) (m : Manifest) (st : RState) (p : Pair),
      p ∈ st.visited → p ∈ (resolveDependencies reg fuel m st).2.visited := by
  intro fuel
  induction fuel with
  | zero => intro m st p hp; exact hp
  | succ fuel ih =>
    intro m st p hp
    simp only [resolveDependencies]
    split
    · exact hp
    · refine resolveChildren_visited_mono _
        (fun m' s' p' hp' => ih m' s' p' hp') _ _ _ p ?_
      rw [addLevel_visited]
      exact List.mem_append_left _ hp

/-- The measure driving termination: how many of the registry's concrete
pairs are not yet in the visited set. -/
def unresolvedCount (reg : Registry) (visited : List Pair) : Nat :=
  (reg.okPairs.toFinset \ visited.toFinset).card

theorem unresolvedCount_le (reg : Registry) (visited : List Pair) :
    unresolvedCount reg visited ≤ reg.manifests.length := by
  calc unresolvedCount reg visited
      ≤ reg.okPairs.toFinset.card :=
        Finset.card_le_card (Finset.sdiff_subset)
    _ ≤ reg.okPairs.length := reg.okPairs.toFinset_card_le
    _ ≤ reg.manifests.length := List.length_filterMap_le _ _

theorem unresolvedCount_mono (reg : Registry) (v v' : List Pair)
    (hsub : ∀ p ∈ v, p ∈ v') :
    unresolvedCount reg v' ≤ unresolvedCount reg v := by
  apply Finset.card_le_card
  apply Finset.sdiff_subset_sdiff (Finset.Subset.refl _)
  intro p hp
  rw [List.mem_toFinset] at hp ⊢
  exact hsub p hp

theorem unresolvedCount_lt (reg : Registry) (v v' : List Pair) (p₀ : Pair)
    (hok : p₀ ∈ reg.okPairs) (hnv : p₀ ∉ v) (hv' : p₀ ∈ v')
    (hsub : ∀ p ∈ v, p ∈ v') :
    unresolvedCount reg v' < unresolvedCount reg v := by
  apply Finset.card_lt_card
  have hsubset : reg.okPairs.toFinset \ v'.toFinset ⊆
      reg.okPairs.toFinset \ v.toFinset := by
    apply Finset.sdiff_subset_sdiff (Finset.Subset.refl _)
    intro p hp
    rw [List.mem_toFinset] at hp ⊢
    exact hsub p hp
  rw [Finset.ssubset_iff_of_subset hsubset]
  refine ⟨p₀, ?_, ?_⟩
  · rw [Finset.mem_sdiff, List.mem_toFinset, List.mem_toFinset]
    exact ⟨hok, hnv⟩
  · rw [Finset.mem_sdiff, List.mem_toFinset, List.mem_toFinset]
    intro hcontra
    exact absurd hv' hcontra.2

/-- Two recursive expanders that agree below the measure bound `K` make
`resolveChildren` agree, starting from any state below the bound. -/
theorem resolveChildren_congr (reg : Registry)
    (f g : Manifest → RState → List Resolved × RState) (K : Nat)
    (Hmono : ∀ m s p, p ∈ s.visited → p ∈ (f m s).2.visited)
    (Heq : ∀ m s, unresolvedCount reg s.visited ≤ K → f m s = g m s)
    (depCount : Nat) :
    ∀ (ms : List ManifestL) (st : RState),
      unresolvedCount reg st.visited ≤ K →
      resolveChildren f depCount ms st = resolveChildren g depCount ms st := by
  intro ms
  induction ms with
  | nil => intro st _; rfl
  | cons cur rest ih =>
    intro st h
    have h1 : f cur.toManifest (bumpDepth st) = g cur.toManifest (bumpDepth st) :=
      Heq _ _ h
    have hS : unresolvedCount reg
        (rootProgressStep depCount (f cur.toManifest (bumpDepth st)).2).visited ≤ K := by
      rw [rootProgressStep_visited]
      exact le_trans
        (unresolvedCount_mono reg st.visited _
          (fun p hp => Hmono cur.toManifest (bumpDepth st) p hp)) h
    have htail := ih (rootProgressStep depCount (f cur.toManifest (bumpDepth st)).2) hS
    simp only [resolveChildren]
    rw [htail, h1]

/-- One fuel step is invisible once the fuel exceeds the number of
registry pairs not yet visited. -/
theorem resolveDependencies_fuel_step (reg : Registry) :
    ∀ (fuel : Nat) (m : Manifest) (st : RState),
      unresolvedCount reg st.visited < fuel →
      resolveDependencies reg fuel m st =
        resolveDependencies reg (fuel + 1) m st := by
  intro fuel
  induction fuel with
  | zero => intro m st h; exact absurd h (Nat.not_lt_zero _)
  | succ fuel ih =>
    intro m st h
    simp only [resolveDependencies]
    by_cases hdeps : (getManifestDependencies m st.opts).isEmpty
    · rw [if_pos hdeps, if_pos hdeps]
    · rw [if_neg hdeps, if_neg hdeps]
      cases hms : levelManifests reg (initDepthProgress st)
          (getManifestDependencies m st.opts) with
      | nil => rfl
      | cons c cs =>
        have hc : c ∈ levelManifests reg (initDepthProgress st)
            (getManifestDependencies m st.opts) := by
          rw [hms]
          exact List.mem_cons_self c cs
        obtain ⟨hok, hnv⟩ := levelManifests_mem reg _ _ c hc
        have hlt : unresolvedCount reg
            (addLevel (initDepthProgress st) (c :: cs)).visited <
            unresolvedCount reg st.visited := by
          rw [addLevel_visited]
          refine unresolvedCount_lt reg st.visited _ (c.name, c.version) hok hnv ?_
            (fun p hp => List.mem_append_left _ hp)
          refine List.mem_append_right _ ?_
          exact List.mem_map.mpr ⟨c, List.mem_cons_self c cs, rfl⟩
        refine resolveChildren_congr reg _ _
          (unresolvedCount reg (addLevel (initDepthProgress st) (c :: cs)).visited)
          (fun m' s' p hp => resolveDependencies_visited_mono reg fuel m' s' p hp)
          (fun m' s' hs' => ih m' s' (lt_of_le_of_lt hs' (lt_of_lt_of_le hlt
            (Nat.lt_succ_iff.mp h)))) _ _ _ (le_refl _)

/-- Beyond the registry-derived bound, every fuel value computes the same
resolve pass. -/
theorem resolveDependencies_fuel_ge (reg : Registry) :
    ∀ (fuel : Nat) (m : Manifest) (st : RState),
      resolveBound reg ≤ fuel →
      resolveDependencies reg fuel m st =
        resolveDependencies reg (resolveBound reg) m st := by
  have hstep : ∀ (d : Nat) (m : Manifest) (st : RState),
      resolveDependencies reg (resolveBound reg + d) m st =
        resolveDependencies reg (resolveBound reg) m st := by
    intro d
    induction d with
    | zero => intro m st; rfl
    | succ d ihd =>
      intro m st
      have hmu : unresolvedCount reg st.visited < resolveBound reg + d := by
        have := unresolvedCount_le reg st.visited
        unfold resolveBound
        omega
      show resolveDependencies reg (resolveBound reg + d + 1) m st =
        resolveDependencies reg (resolveBound reg) m st
      rw [← resolveDependencies_fuel_step reg (resolveBound reg + d) m st hmu]
      exact ihd m st
  intro fuel m st hge
  obtain ⟨d, rfl⟩ : ∃ d, fuel = resolveBound reg + d :=
    ⟨fuel - resolveBound reg, by omega⟩
  exact hstep d m st

/-- C8.  The resolver terminates on every dependency graph, cyclic ones
included: the recursion depth is bounded because only the first visit of
each concrete `(name, version)` is expanded, so beyond the
registry-derived fuel bound the computed pass is fuel-independent; and
the concrete cycle `a@1.0.0 → b@1.0.0 → a@1.0.0` yields exactly the two
output elements `a@1.0.0` and `b@1.0.0` (the revisited `a` is filtered by
visited-set membership, not expanded again). -/
theorem resolveDependencies_terminates :
    (∀ (reg : Registry) (fuel : Nat) (manifest : Manifest) (st : RState),
      resolveBound reg ≤ fuel →
      resolveDependencies reg fuel manifest st =
        resolveDependencies reg (resolveBound reg) manifest st) ∧
    (resolveDependenciesTop cycleReg cycleRoot {}).1 =
      [{ name := "a", version := "1.0.0", isLatest := true },
       { name := "b", version := "1.0.0", isLatest := true }] ∧
    (resolveDependenciesTop cycleReg cycleRoot {}).2.visited =
      [("a", "1.0.0"), ("b", "1.0.0")] :=
  ⟨fun reg fuel manifest st hge =>
    resolveDependencies_fuel_ge reg fuel manifest st hge, rfl, rfl⟩

/-- C8, witness: with any fuel at least the bound (here 10), the concrete
cycle pass equals the bounded one. -/
theorem resolveDependencies_terminates_witness :
    resolveDependencies cycleReg 10 cycleRoot
      { visited := [], opts := {}, events := [] } =
      resolveDependencies cycleReg (resolveBound cycleReg) cycleRoot
        { visited := [], opts := {}, events := [] } :=
  resolveDependencies_terminates.1 cycleReg 10 cycleRoot
    { visited := [], opts := {}, events := [] } (by decide)

/-! ### C2: the resolver's output is duplicate-free -/

/-- The `(name, version)` pairs of a resolved output sequence. -/
def pairsOf (l : List Resolved) : List Pair :=
  l.map (fun r => (r.name, r.version))

/-- The `(name, version)` pairs of a level's manifest batch. -/
def pairsOfL (ms : List ManifestL) : List Pair :=
  ms.map (fun m => (m.name, m.version))

theorem manifestAt_entry_mem (reg : Registry) (n v : String) (m : Manifest)
    (h : reg.manifestAt n v = RegResult.ok m) :
    ((n, v), RegResult.ok m) ∈ reg.manifests := by
  unfold Registry.manifestAt at h
  rcases hf : reg.manifests.find? (fun e => e.1 = (n, v)) with _ | e
  · rw [hf] at h
    exact absurd h (by simp)
  · rw [hf] at h
    have h2 : e.2 = RegResult.ok m := h
    have hp : e.1 = (n, v) := by simpa using List.find?_some hf
    have he : e ∈ reg.manifests := List.mem_of_find?_eq_some hf
    rw [← hp, ← h2]
    exact he

theorem manifestWithFallback_ok_exists (reg : Registry)
    (name version : String) (m : Manifest)
    (h : manifestWithFallback reg name version = RegResult.ok m) :
    ∃ v', reg.manifestAt name v' = RegResult.ok m := by
  rcases h0 : reg.manifestAt name version with m0 | e0
  · rw [manifestWithFallback_of_ok reg name version m0 h0] at h
    have h2 : m0 = m := by simpa using h
    subst h2
    exact ⟨version, h0⟩
  · rw [manifestWithFallback_of_err reg name version e0 h0] at h
    by_cases h1 : e0.code = "ETARGET"
    · rw [if_pos h1] at h
      exact ⟨e0.distTagsLatest, h⟩
    · rw [if_neg h1] at h
      by_cases h2 : e0.code = "E404"
      · rw [if_pos h2] at h
        by_cases h3 : version ≠ "latest"
        · rw [if_pos h3] at h
          exact ⟨"latest", h⟩
        · rw [if_neg h3] at h
          exact absurd h (by simp)
      · rw [if_neg h2] at h
        exact absurd h (by simp)

theorem getPackageManifest_ok_exists (reg : Registry)
    (name version : String) (ml : ManifestL)
    (h : getPackageManifest reg name version = RegResult.ok ml) :
    ∃ v', reg.manifestAt name v' = RegResult.ok ml.toManifest := by
  rcases h0 : manifestWithFallback reg name version with m0 | e0
  · rw [getPackageManifest_of_ok reg name version m0 h0] at h
    by_cases h1 : version ≠ "latest"
    · rw [if_pos h1] at h
      rcases h2 : reg.packumentAt name with pk | e
      · rw [h2] at h
        have h3 : (⟨m0, pk.distTagsLatest == m0.version⟩ : ManifestL) = ml := by
          simpa using h
        rw [← h3]
        exact manifestWithFallback_ok_exists reg name version m0 h0
      · rw [h2] at h
        exact absurd h (by simp)
    · rw [if_neg h1] at h
      have h3 : (⟨m0, true⟩ : ManifestL) = ml := by simpa using h
      rw [← h3]
      exact manifestWithFallback_ok_exists reg name version m0 h0
  · rw [getPackageManifest_of_err reg name version e0 h0] at h
    exact absurd h (by simp)

/-- Every member of a level batch was fetched as some edge's manifest. -/
theorem levelManifests_mem_fetch (reg : Registry) (st : RState)
    (dependencies : List (String × String)) (cur : ManifestL)
    (h : cur ∈ levelManifests reg st dependencies) :
    ∃ n v, getPackageManifest reg n v = RegResult.ok cur := by
  unfold levelManifests at h
  obtain ⟨hmem, _⟩ := List.mem_filter.mp h
  obtain ⟨r, hr, hcur⟩ := List.mem_filterMap.mp hmem
  obtain ⟨d, _, hd⟩ := List.mem_map.mp hr
  rcases r with m0 | e0
  · have h2 : m0 = cur := by simpa using hcur
    subst h2
    exact ⟨d.1, d.2, hd⟩
  · exact absurd hcur (by simp)

/-- Under a name-faithful registry the names of a level batch form a
sublist of the edge names it was fetched from. -/
theorem levelManifests_names_sublist (reg : Registry)
    (hfaith : ∀ n v m, reg.manifestAt n v = RegResult.ok m → m.name = n)
    (st : RState) (dependencies : List (String × String)) :
    ((levelManifests reg st dependencies).map (fun m => m.name)).Sublist
      (dependencies.map Prod.fst) := by
  have hfetch : ∀ (ds : List (String × String)),
      (((ds.map (fun d => getPackageManifest reg d.1 d.2)).filterMap
        (fun r => match r with
          | RegResult.ok m => some m
          | RegResult.err _ => none)).map (fun m => m.name)).Sublist
        (ds.map Prod.fst) := by
    intro ds
    induction ds with
    | nil => simp
    | cons d ds ih =>
      simp only [List.map_cons, List.filterMap_cons]
      rcases hd : getPackageManifest reg d.1 d.2 with m0 | e0
      · simp only [List.map_cons]
        have hname : m0.name = d.1 := by
          obtain ⟨v', hv'⟩ := getPackageManifest_ok_exists reg d.1 d.2 m0 hd
          exact hfaith d.1 v' m0.toManifest hv'
        rw [hname]
        exact List.Sublist.cons₂ _ ih
      · exact List.Sublist.cons _ ih
  unfold levelManifests
  refine List.Sublist.trans ?_ (List.Sublist.trans
    (hfetch (dependencies.filter (fun d => !(st.visited.contains d))))
    (List.Sublist.map Prod.fst (List.filter_sublist _)))
  exact List.Sublist.map _ (List.filter_sublist _)

theorem pairsOfL_nodup (ms : List ManifestL)
    (h : (ms.map (fun m => m.name)).Nodup) : (pairsOfL ms).Nodup := by
  refine List.Nodup.of_map Prod.fst ?_
  have heq : (pairsOfL ms).map Prod.fst = ms.map (fun m => m.name) := by
    unfold pairsOfL
    rw [List.map_map]
    rfl
  rw [heq]
  exact h

theorem getManifestDependencies_keys (manifest : Manifest) (opts : Options) :
    (getManifestDependencies manifest opts).map Prod.fst =
      (mergedDependencies manifest opts.dev opts.peer opts.optional).map Prod.fst := by
  unfold getManifestDependencies
  rw [List.map_map]
  rfl

/-- The children loop preserves output uniqueness: provided every level
manifest is already recorded in the visited set, the pairs emitted by the
loop are duplicate-free and each of them either names a level manifest or
was unvisited when the loop started. -/
theorem resolveChildren_nodup_inv
    (recur : Manifest → RState → List Resolved × RState)
    (Hmono : ∀ m s p, p ∈ s.visited → p ∈ (recur m s).2.visited)
    (Hrec : ∀ m s, (m.dependencies.map Prod.fst).Nodup →
      (pairsOf (recur m s).1).Nodup ∧
      ∀ p ∈ pairsOf (recur m s).1, p ∉ s.visited ∧ p ∈ (recur m s).2.visited)
    (depCount : Nat) :
    ∀ (ms : List ManifestL) (st : RState),
      (pairsOfL ms).Nodup →
      (∀ cur ∈ ms, (cur.name, cur.version) ∈ st.visited) →
      (∀ cur ∈ ms, (cur.toManifest.dependencies.map Prod.fst).Nodup) →
      (pairsOf (resolveChildren recur depCount ms st).1).Nodup ∧
      ∀ p ∈ pairsOf (resolveChildren recur depCount ms st).1,
        p ∈ (resolveChildren recur depCount ms st).2.visited ∧
        (p ∈ pairsOfL ms ∨ p ∉ st.visited) := by
  intro ms
  induction ms with
  | nil =>
    intro st _ _ _
    exact ⟨List.nodup_nil, fun p hp => absurd hp (List.not_mem_nil p)⟩
  | cons cur rest ih =>
    intro st hnd hvis hdn
    have hcurvis : (cur.name, cur.version) ∈ st.visited :=
      hvis cur (List.mem_cons_self cur rest)
    obtain ⟨hcn, hcmem⟩ :=
      Hrec cur.toManifest (bumpDepth st) (hdn cur (List.mem_cons_self cur rest))
    have hst3v : (rootProgressStep depCount
        (recur cur.toManifest (bumpDepth st)).2).visited =
        (recur cur.toManifest (bumpDepth st)).2.visited :=
      rootProgressStep_visited _ _
    have hnd' : (pairsOfL rest).Nodup := (List.nodup_cons.mp hnd).2
    have hcur_notin : (cur.name, cur.version) ∉ pairsOfL rest :=
      (List.nodup_cons.mp hnd).1
    have hsub3 : ∀ p ∈ st.visited, p ∈ (rootProgressStep depCount
        (recur cur.toManifest (bumpDepth st)).2).visited := by
      intro p hp
      rw [hst3v]
      exact Hmono cur.toManifest (bumpDepth st) p hp
    obtain ⟨htn, htmem⟩ := ih
      (rootProgressStep depCount (recur cur.toManifest (bumpDepth st)).2)
      hnd'
      (fun c hc => hsub3 _ (hvis c (List.mem_cons_of_mem _ hc)))
      (fun c hc => hdn c (List.mem_cons_of_mem _ hc))
    have htailmono : ∀ p ∈ (rootProgressStep depCount
        (recur cur.toManifest (bumpDepth st)).2).visited,
        p ∈ (resolveChildren recur depCount rest (rootProgressStep depCount
          (recur cur.toManifest (bumpDepth st)).2)).2.visited :=
      fun p hp => resolveChildren_visited_mono recur Hmono depCount rest _ p hp
    simp only [resolveChildren, pairsOf, List.map_cons, List.map_append,
      List.cons_append]
    constructor
    · -- Nodup of the assembled pair list
      rw [List.nodup_cons]
      refine ⟨?_, ?_⟩
      · intro hmem
        rcases List.mem_append.mp hmem with hch | hta
        · exact absurd hcurvis (hcmem _ hch).1
        · rcases (htmem _ hta).2 with hl | hr
          · exact absurd hl hcur_notin
          · exact absurd (hsub3 _ hcurvis) hr
      · rw [List.nodup_append]
        refine ⟨hcn, htn, ?_⟩
        intro p hch hta
        rcases (htmem _ hta).2 with hl | hr
        · obtain ⟨c, hc, hcp⟩ := List.mem_map.mp hl
          have : p ∈ st.visited := by
            rw [← hcp]
            exact hvis c (List.mem_cons_of_mem _ hc)
          exact absurd this (hcmem _ hch).1
        · refine absurd ?_ hr
          rw [hst3v]
          exact (hcmem _ hch).2
    · -- membership and origin of every emitted pair
      intro p hp
      rcases List.mem_cons.mp hp with rfl | hp'
      · refine ⟨htailmono _ (hsub3 _ hcurvis), Or.inl ?_⟩
        exact List.mem_cons_self _ _
      · rcases List.mem_append.mp hp' with hch | hta
        · refine ⟨?_, Or.inr (hcmem _ hch).1⟩
          refine htailmono _ ?_
          rw [hst3v]
          exact (hcmem _ hch).2
        · refine ⟨(htmem _ hta).1, ?_⟩
          rcases (htmem _ hta).2 with hl | hr
          · exact Or.inl (List.mem_cons_of_mem _ hl)
          · exact Or.inr (fun hst => hr (hsub3 _ hst))

/-- A resolve pass from any state emits duplicate-free pairs, all of them
freshly visited during the pass. -/
theorem resolveDependencies_nodup_inv (reg : Registry)
    (hfaith : ∀ n v m, reg.manifestAt n v = RegResult.ok m → m.name = n)
    (hwf : ∀ n v m, reg.manifestAt n v = RegResult.ok m →
      (m.dependencies.map Prod.fst).Nodup) :
    ∀ (fuel : Nat) (manifest : Manifest) (st : RState),
      (manifest.dependencies.map Prod.fst).Nodup →
      (pairsOf (resolveDependencies reg fuel manifest st).1).Nodup ∧
      ∀ p ∈ pairsOf (resolveDependencies reg fuel manifest st).1,
        p ∉ st.visited ∧ p ∈ (resolveDependencies reg fuel manifest st).2.visited := by
  intro fuel
  induction fuel with
  | zero =>
    intro manifest st _
    exact ⟨List.nodup_nil, fun p hp => absurd hp (List.not_mem_nil p)⟩
  | succ fuel ih =>
    intro manifest st hroot
    simp only [resolveDependencies]
    by_cases hde : (getManifestDependencies manifest st.opts).isEmpty
    · rw [if_pos hde]
      exact ⟨List.nodup_nil, fun p hp => absurd hp (List.not_mem_nil p)⟩
    · rw [if_neg hde]
      have hdepskeys : ((getManifestDependencies manifest st.opts).map
          Prod.fst).Nodup := by
        rw [getManifestDependencies_keys]
        exact mergedDependencies_nodup manifest _ _ _ hroot
      have hnames := levelManifests_names_sublist reg hfaith
        (initDepthProgress st) (getManifestDependencies manifest st.opts)
      have hnd : (pairsOfL (levelManifests reg (initDepthProgress st)
          (getManifestDependencies manifest st.opts))).Nodup :=
        pairsOfL_nodup _ (List.Nodup.sublist hnames hdepskeys)
      have hvis2 : ∀ cur ∈ levelManifests reg (initDepthProgress st)
          (getManifestDependencies manifest st.opts),
          (cur.name, cur.version) ∈ (addLevel (initDepthProgress st)
            (levelManifests reg (initDepthProgress st)
              (getManifestDependencies manifest st.opts))).visited := by
        intro c hc
        rw [addLevel_visited]
        exact List.mem_append_right _ (List.mem_map.mpr ⟨c, hc, rfl⟩)
      have hdn : ∀ cur ∈ levelManifests reg (initDepthProgress st)
          (getManifestDependencies manifest st.opts),
          (cur.toManifest.dependencies.map Prod.fst).Nodup := by
        intro c hc
        obtain ⟨n', v', hf⟩ := levelManifests_mem_fetch reg _ _ c hc
        obtain ⟨v'', hv''⟩ := getPackageManifest_ok_exists reg n' v' c hf
        exact hwf n' v'' c.toManifest hv''
      obtain ⟨hrn, hrmem⟩ := resolveChildren_nodup_inv _
        (fun m' s' p hp => resolveDependencies_visited_mono reg fuel m' s' p hp)
        (fun m' s' hm' => ih m' s' hm')
        (getManifestDependencies manifest st.opts).length
        (levelManifests reg (initDepthProgress st)
          (getManifestDependencies manifest st.opts))
        (addLevel (initDepthProgress st)
          (levelManifests reg (initDepthProgress st)
            (getManifestDependencies manifest st.opts)))
        hnd hvis2 hdn
      refine ⟨hrn, ?_⟩
      intro p hp
      obtain ⟨hfin, hor⟩ := hrmem p hp
      refine ⟨?_, hfin⟩
      rcases hor with hl | hr
      · obtain ⟨c, hc, hcp⟩ := List.mem_map.mp hl
        rw [← hcp]
        exact (levelManifests_mem reg _ _ c hc).2
      · intro hst
        refine hr ?_
        rw [addLevel_visited]
        exact List.mem_append_left _ hst

/-- C2.  For every resolve pass started from a cleared visited set — over
a registry whose manifests are served under their own name and carry, as
JS objects do, duplicate-free dependency keys — the resolver's output
contains each `(name, version)` pair at most once; in particular when two
edges with different range strings resolve to the same concrete pair,
only one output element carries that pair. -/
theorem resolver_output_nodup :
    ∀ (reg : Registry) (manifest : Manifest) (opts : Options) (fuel : Nat),
      (∀ n v m, reg.manifestAt n v = RegResult.ok m → m.name = n) →
      (∀ n v m, reg.manifestAt n v = RegResult.ok m →
        (m.dependencies.map Prod.fst).Nodup) →
      (manifest.dependencies.map Prod.fst).Nodup →
      (pairsOf (resolveDependencies reg fuel manifest
        { visited := [], opts := opts, events := [] }).1).Nodup ∧
      (pairsOf (resolveDependenciesTop reg manifest opts).1).Nodup := by
  intro reg manifest opts fuel hfaith hwf hroot
  exact ⟨(resolveDependencies_nodup_inv reg hfaith hwf fuel manifest _ hroot).1,
    (resolveDependencies_nodup_inv reg hfaith hwf (resolveBound reg) manifest _
      hroot).1⟩

/-- The concrete cycle registry is well formed: manifests are served
under their own name with duplicate-free dependency keys. -/
theorem cycleReg_wf_aux (n v : String) (m : Manifest)
    (h : cycleReg.manifestAt n v = RegResult.ok m) :
    m.name = n ∧ (m.dependencies.map Prod.fst).Nodup := by
  have hmem := manifestAt_entry_mem cycleReg n v m h
  simp only [cycleReg, List.mem_cons, List.not_mem_nil, or_false,
    Prod.mk.injEq, RegResult.ok.injEq] at hmem
  rcases hmem with ⟨⟨rfl, rfl⟩, rfl⟩ | ⟨⟨rfl, rfl⟩, rfl⟩ <;>
    exact ⟨rfl, by decide⟩

/-- C2, witness: the cycle registry and its root manifest. -/
theorem resolver_output_nodup_witness :
    (pairsOf (resolveDependencies cycleReg 7 cycleRoot
      { visited := [], opts := {}, events := [] }).1).Nodup ∧
    (pairsOf (resolveDependenciesTop cycleReg cycleRoot {}).1).Nodup :=
  resolver_output_nodup cycleReg cycleRoot {} 7
    (fun n v m h => (cycleReg_wf_aux n v m h).1)
    (fun n v m h => (cycleReg_wf_aux n v m h).2)
    (by decide)

end NpmOfflinePackager
